import Mathlib

/-!
# Verification of the vocal-separator chord-timeline code

Shallow embedding of the chord-progression utilities of the
`benhaimmatan/vocal-separator` repository (React frontend).  JavaScript
numbers are modelled as rationals (`ℚ`); the structural claims verified
here do not depend on floating-point rounding.  JavaScript `undefined`
is modelled with `Option`, and the JS `||` fallback operator (which
treats `0`, `""`, `undefined` as falsy) is modelled by the `jsOr*`
helpers below.  `Math.round` rounds half toward +∞, which is `⌊q + 1/2⌋`.
-/

/-- JS `Math.round`: round half toward +∞. -/
def jsRound (q : ℚ) : Int := ⌊q + 1/2⌋

/-- JS `a || b` for two numbers: `0` is falsy. -/
def jsOrQ (a b : ℚ) : ℚ := if a = 0 then b else a

/-- JS `a || b` where `a` is a possibly-undefined number: `undefined` and `0` are falsy. -/
def jsOrOQ (a : Option ℚ) (b : ℚ) : ℚ :=
  match a with
  | none => b
  | some x => if x = 0 then b else x

/-- JS `a || b` where `a` is a possibly-undefined integer. -/
def jsOrOI (a : Option Int) (b : Int) : Int :=
  match a with
  | none => b
  | some x => if x = 0 then b else x

/-- JS `a || b` where `a` is a possibly-undefined string: `undefined` and `""` are falsy. -/
def jsOrOS (a : Option String) (b : String) : String :=
  match a with
  | none => b
  | some x => if x = "" then b else x

/-- JS `a || b` for strings: the empty string is falsy. -/
def jsOrS (a b : String) : String := if a = "" then b else a

/-- JS `String.prototype.split(':')` on a character list. -/
def splitOnColon : List Char → List (List Char)
  | [] => [[]]
  | c :: rest =>
    let r := splitOnColon rest
    if c = ':' then [] :: r
    else
      match r with
      | [] => [[c]]
      | h :: t => (c :: h) :: t

/-- The root part of `root:quality` (first `split(':')` component). -/
def colonRoot (s : String) : String :=
  String.mk ((splitOnColon s.data).headD [])

/-- The quality part of `root:quality` (second `split(':')` component). -/
def colonQuality (s : String) : String :=
  String.mk ((splitOnColon s.data).getD 1 [])

/-- JS `s.includes(':')`. -/
def hasColon (s : String) : Bool := s.data.contains ':'

namespace Part005

/-- Function `normalizeChordName` as duplicated in the `PianoChordDiagram` copy of
`src/unnamed/part_005` (the short variant: unknown qualities default to the
bare root, i.e. to major). -/
def normalizeChordName (chordName : String) : String :=
  if chordName = "" ∨ chordName = "N/C" ∨ chordName = "—" ∨ chordName = "N" then chordName
  else if hasColon chordName then
    let root := colonRoot chordName
    let quality := colonQuality chordName
    match quality with
    | "min" => root ++ "m"
    | "maj" => root
    | "dim" => root ++ "dim"
    | "aug" => root ++ "aug"
    | "7" => root ++ "7"
    | "maj7" => root ++ "maj7"
    | "min7" => root ++ "m7"
    | _ => root
  else chordName

end Part005

namespace Part003

/-- Function `normalizeChordName` as duplicated in the `PianoChordDiagram` copy of
`src/unnamed/part_003` (the long variant: `dim7`, `hdim7`/`m7b5`,
`minmaj7`/`mM7`, `sus2`, `sus4`/`sus`, unknown qualities preserved). -/
def normalizeChordName (chordName : String) : String :=
  if chordName = "" ∨ chordName = "N/C" ∨ chordName = "—" ∨ chordName = "N" then chordName
  else if hasColon chordName then
    let root := colonRoot chordName
    let quality := colonQuality chordName
    match quality with
    | "min" => root ++ "m"
    | "maj" => root
    | "dim" => root ++ "dim"
    | "dim7" => root ++ "dim7"
    | "hdim7" => root ++ "hdim7"
    | "m7b5" => root ++ "hdim7"
    | "aug" => root ++ "aug"
    | "7" => root ++ "7"
    | "maj7" => root ++ "maj7"
    | "min7" => root ++ "m7"
    | "minmaj7" => root ++ "minmaj7"
    | "mM7" => root ++ "minmaj7"
    | "sus2" => root ++ "sus2"
    | "sus4" => root ++ "sus4"
    | "sus" => root ++ "sus4"
    | _ => root ++ quality
  else chordName

end Part003

namespace Part004

/-- Function `normalizeChordName` as duplicated in the `PianoChordDiagram` copy of
`src/unnamed/part_004` (like the `part_003` variant plus `min6` and
`maj6`/`6`).  The guard against the em-dash placeholder appears in the
source file as a mojibake of the same `—` character. -/
def normalizeChordName (chordName : String) : String :=
  if chordName = "" ∨ chordName = "N/C" ∨ chordName = "—" ∨ chordName = "N" then chordName
  else if hasColon chordName then
    let root := colonRoot chordName
    let quality := colonQuality chordName
    match quality with
    | "min" => root ++ "m"
    | "maj" => root
    | "dim" => root ++ "dim"
    | "dim7" => root ++ "dim7"
    | "hdim7" => root ++ "hdim7"
    | "m7b5" => root ++ "hdim7"
    | "aug" => root ++ "aug"
    | "7" => root ++ "7"
    | "maj7" => root ++ "maj7"
    | "min7" => root ++ "m7"
    | "min6" => root ++ "min6"
    | "maj6" => root ++ "6"
    | "6" => root ++ "6"
    | "minmaj7" => root ++ "minmaj7"
    | "mM7" => root ++ "minmaj7"
    | "sus2" => root ++ "sus2"
    | "sus4" => root ++ "sus4"
    | "sus" => root ++ "sus4"
    | _ => root ++ quality
  else chordName

end Part004

example : Part003.normalizeChordName "C:min" = "Cm" := by decide
example : Part005.normalizeChordName "C:sus2" = "C" := by decide
example : Part003.normalizeChordName "C:sus2" = "Csus2" := by decide
example : Part003.normalizeChordName "C:hdim7" = "Chdim7" := by decide
example : Part003.normalizeChordName "C:m7b5" = "Chdim7" := by decide
example : Part004.normalizeChordName "Bb:maj6" = "Bb6" := by decide
example : Part005.normalizeChordName "N" = "N" := by decide
example : Part005.normalizeChordName "Cm" = "Cm" := by decide

/-! ## Data model

`LegacyChordData` (src/unnamed/part_001, types/chord.ts): the raw
detection entries `{time, chord, confidence}` fed to every timeline
component.  `confidence` is optional because some callers omit it.

Every in-repo caller of the legacy consolidation path
(`ChordAnalyzer.jsx`, `JobHistoryModal.jsx`) passes entries whose
`startTime` field equals `time`, so the JS fallback chains
`chord.time || chord.startTime || 0` and
`nextChord.time || nextChord.startTime` both evaluate to the `time`
field (including `time = 0`, where `0 || 0` still yields `0`); the
embedding therefore reads `time` directly. -/

structure LegacyChord where
  time : ℚ
  chord : String
  confidence : Option ℚ
deriving DecidableEq, Inhabited

/-- A raw segment with start/end timing, as built by the consolidation
loop of `ChordProgressionBar.jsx` (lines 139–168). -/
structure TimedChord where
  startTime : ℚ
  endTime : ℚ
  chord : String
  confidence : Option ℚ
deriving DecidableEq, Inhabited

namespace ChordAnalyzer

/-- One entry of `processedChords` in `ChordAnalyzer.jsx` (lines 167–185). -/
structure CAChord where
  time : ℚ
  duration : ℚ
  startTime : ℚ
  endTime : ℚ
  beats : Int
  chord : String
  confidence : Option ℚ
  index : Nat
deriving DecidableEq, Inhabited

/-- The beat estimate of `ChordAnalyzer.jsx` line 174 before rounding
and clamping: `(duration / 60) * bpm * 4`. -/
def caBeatEstimate (duration bpm : ℚ) : ℚ := duration / 60 * bpm * 4

/-- Worker for `processedChords`: each chord's duration runs to the next
chord's `time` (default 4 seconds for the last chord). -/
def processCA (bpm : ℚ) : List LegacyChord → Nat → List CAChord
  | [], _ => []
  | [c], i =>
    [{ time := c.time, duration := 4, startTime := c.time, endTime := c.time + 4,
       beats := max 1 (jsRound (caBeatEstimate 4 bpm)),
       chord := c.chord, confidence := c.confidence, index := i }]
  | c :: c2 :: rest, i =>
    { time := c.time, duration := c2.time - c.time, startTime := c.time, endTime := c2.time,
      beats := max 1 (jsRound (caBeatEstimate (c2.time - c.time) bpm)),
      chord := c.chord, confidence := c.confidence, index := i }
      :: processCA bpm (c2 :: rest) (i + 1)

/-- The `processedChords` memo of `ChordAnalyzer.jsx` (lines 167–185). -/
def processedChords (chordData : List LegacyChord) (bpm : ℚ) : List CAChord :=
  processCA bpm chordData 0

end ChordAnalyzer

namespace MovingWindow

/-- Interface `ChordNode` of types/chord.ts (src/unnamed/part_001). -/
structure ChordNode where
  id : String
  chordName : String
  durationBeats : ℚ
  startTime : Option ℚ
  confidence : Option ℚ
deriving DecidableEq, Inhabited

/-- Interface `Progression` of types/chord.ts. -/
structure Progression where
  id : String
  nodes : List ChordNode
  bpm : ℚ
  totalBeats : ℚ
  timeSignature : Nat × Nat
deriving DecidableEq, Inhabited

/-- The beat estimate of `convertLegacyToProgression`
(src/unnamed/part_002 line 24) before rounding and clamping:
`(duration / 60) * detectedBpm * 4`. -/
def legacyBeatEstimate (duration bpm : ℚ) : ℚ := duration / 60 * bpm * 4

/-- Worker computing the `durationBeats` of each node. -/
def convertNodes (detectedBpm : ℚ) : List LegacyChord → Nat → List ChordNode
  | [], _ => []
  | [c], i =>
    [{ id := "chord-" ++ toString i, chordName := jsOrS c.chord "N",
       durationBeats := ((max 1 (jsRound (legacyBeatEstimate 4 detectedBpm)) : Int) : ℚ),
       startTime := some c.time, confidence := c.confidence }]
  | c :: c2 :: rest, i =>
    { id := "chord-" ++ toString i, chordName := jsOrS c.chord "N",
      durationBeats :=
        ((max 1 (jsRound (legacyBeatEstimate (c2.time - c.time) detectedBpm)) : Int) : ℚ),
      startTime := some c.time, confidence := c.confidence }
      :: convertNodes detectedBpm (c2 :: rest) (i + 1)

/-- Function `convertLegacyToProgression` of src/unnamed/part_002 (lines 14–52);
returns `none` on an empty chord list. -/
def convertLegacyToProgression (legacyChords : List LegacyChord) (detectedBpm : ℚ) :
    Option Progression :=
  if legacyChords = [] then none
  else
    let nodes := convertNodes detectedBpm legacyChords 0
    some { id := "main-progression", nodes := nodes, bpm := detectedBpm,
           totalBeats := (nodes.map (·.durationBeats)).sum,
           timeSignature := (4, 4) }

/-- Hook `useBPMDetection` of src/unnamed/part_002 (lines 165–182).  When the
average interval is zero, JS divides by zero giving `Infinity`, which the
`Math.min(180, ·)` clamp turns into 180. -/
def useBPMDetection (chordData : List LegacyChord) : ℚ :=
  if chordData = [] then 120
  else
    let intervals := List.zipWith (fun a b => b.time - a.time) chordData chordData.tail
    if intervals = [] then 120
    else
      let avgInterval := intervals.sum / intervals.length
      if avgInterval = 0 then 180
      else ((max 60 (min 180 (jsRound (60 / (avgInterval / 2)))) : Int) : ℚ)

/-- The assignment `finalBpm = propBpm || detectedBpm` of src/unnamed/part_002 line 193
(an absent or zero override falls back to the detected value). -/
def finalBpm (propBpm : Option ℚ) (chordData : List LegacyChord) : ℚ :=
  jsOrOQ propBpm (useBPMDetection chordData)

/-- The `calculateActiveChord` inner loop of `usePlaybackEngine`
(src/unnamed/part_001 lines 26–37): walk the cumulative beat boundaries,
returning the first index whose cumulative total exceeds the beat. -/
def activeChordAux (currentBeat : ℚ) (cum : ℚ) (i : Nat) : List ChordNode → Option Nat
  | [] => none
  | n :: rest =>
    let cum2 := cum + n.durationBeats
    if currentBeat < cum2 then some i else activeChordAux currentBeat cum2 (i + 1) rest

/-- Function `calculateActiveChord` of src/unnamed/part_001 (lines 26–37). -/
def calculateActiveChord (currentBeat : ℚ) (nodes : List ChordNode) : Nat :=
  if nodes = [] then 0
  else (activeChordAux currentBeat 0 0 nodes).getD (nodes.length - 1)

end MovingWindow

example :
    MovingWindow.useBPMDetection [⟨0, "C", none⟩, ⟨2, "D", none⟩] = 60 := by
  norm_num [MovingWindow.useBPMDetection, jsRound]
  decide
example :
    MovingWindow.useBPMDetection [⟨0, "C", none⟩, ⟨1, "D", none⟩] = 120 := by
  norm_num [MovingWindow.useBPMDetection, jsRound]
example :
    MovingWindow.useBPMDetection [⟨5, "C", none⟩] = 120 := by
  norm_num [MovingWindow.useBPMDetection]
example :
    MovingWindow.calculateActiveChord 3
      [⟨"a", "C", 2, none, none⟩, ⟨"b", "D", 2, none, none⟩] = 1 := by
  norm_num [MovingWindow.calculateActiveChord, MovingWindow.activeChordAux]
  decide
example :
    MovingWindow.calculateActiveChord 100
      [⟨"a", "C", 2, none, none⟩, ⟨"b", "D", 2, none, none⟩] = 1 := by
  norm_num [MovingWindow.calculateActiveChord, MovingWindow.activeChordAux]
  decide
example :
    MovingWindow.calculateActiveChord (-5)
      [⟨"a", "C", 2, none, none⟩, ⟨"b", "D", 2, none, none⟩] = 0 := by
  norm_num [MovingWindow.calculateActiveChord, MovingWindow.activeChordAux]
example :
    MovingWindow.calculateActiveChord 3
      [⟨"a", "C", 5, none, none⟩, ⟨"b", "D", -3, none, none⟩] = 0 := by
  norm_num [MovingWindow.calculateActiveChord, MovingWindow.activeChordAux]

namespace ChordProgressionBar

/-- Pair each detected chord with its timing: `startTime` is the chord's
own `time`, `endTime` is the next chord's `time` (the audio `duration`
for the last chord), and an empty chord name falls back to `'N'`
(`ChordProgressionBar.jsx` lines 143–153). -/
def withTiming : List LegacyChord → ℚ → List TimedChord
  | [], _ => []
  | [c], duration => [⟨c.time, duration, jsOrS c.chord "N", c.confidence⟩]
  | c :: c2 :: rest, duration =>
    ⟨c.time, c2.time, jsOrS c.chord "N", c.confidence⟩ :: withTiming (c2 :: rest) duration

/-- The consolidation loop body (`ChordProgressionBar.jsx` lines 143–168):
a frame with the same chord as the pending segment extends the pending
segment's `endTime`; otherwise the pending segment is emitted and the
frame starts a new one.  All fields other than `endTime` (in particular
`confidence`) stay those of the run's first frame. -/
def consolidateAux (cur : TimedChord) : List TimedChord → List TimedChord
  | [] => [cur]
  | t :: rest =>
    if t.chord = cur.chord then consolidateAux { cur with endTime := t.endTime } rest
    else cur :: consolidateAux t rest

/-- The `consolidatedChords` array of `ChordProgressionBar.jsx` (lines 139–168). -/
def consolidatedChords (detectedChords : List LegacyChord) (duration : ℚ) : List TimedChord :=
  match withTiming detectedChords duration with
  | [] => []
  | t :: rest => consolidateAux t rest

/-- One entry of the progression state set by `ChordProgressionBar.jsx`
(either the enhanced path, lines 116–130, or the legacy path, lines
170–205). -/
structure CPBChord where
  chord : String
  startTime : ℚ
  endTime : ℚ
  duration : ℚ
  beats : Int
  measures : Int
  beat_position : Int
  time_signature : String
  tempo_bpm : ℚ
  chord_type : String
  rhythmic_strength : ℚ
  confidence : ℚ
  index : Nat
deriving DecidableEq, Inhabited

/-- The legacy beat estimate of `ChordProgressionBar.jsx` lines 178–179:
`beatInterval = 60.0 / bpm` and `estimatedBeats = chordDuration / beatInterval`. -/
def cpbEstimatedBeats (chordDuration bpm : ℚ) : ℚ := chordDuration / (60 / bpm)

/-- The `actualBeats` computation of `ChordProgressionBar.jsx` lines 180–188: round the
estimate, clamp to a minimum of 1, and force a minimum of 2 for ballads
(`bpm < 80`) on chords longer than one second. -/
def cpbActualBeats (chordDuration bpm : ℚ) : Int :=
  let base := max 1 (jsRound (cpbEstimatedBeats chordDuration bpm))
  if bpm < 80 ∧ chordDuration > 1 then max 2 base else base

/-- The legacy `processedChords` map of `ChordProgressionBar.jsx`
(lines 170–205), applied to the consolidated segments. -/
def cpbProcessOne (bpm : ℚ) (index : Nat) (chord : TimedChord) : CPBChord :=
  let chordDuration := chord.endTime - chord.startTime
  let actualBeats := cpbActualBeats chordDuration bpm
  { chord := chord.chord
    startTime := chord.startTime
    endTime := chord.endTime
    duration := chordDuration
    beats := actualBeats
    measures := ⌈(actualBeats : ℚ) / 4⌉
    beat_position := (index % 4 : Nat) + 1
    time_signature := "4/4"
    tempo_bpm := bpm
    chord_type := if actualBeats > 4 then "sustained"
                  else if actualBeats = 1 then "accent" else "standard"
    rhythmic_strength := 1/2
    confidence := jsOrOQ chord.confidence (4/5)
    index := index }

/-- The legacy path of `ChordProgressionBar.jsx`: consolidation followed by
the per-segment beat/confidence computation. -/
def processedChords (detectedChords : List LegacyChord) (duration bpm : ℚ) : List CPBChord :=
  (consolidatedChords detectedChords duration).enum.map fun p => cpbProcessOne bpm p.1 p.2

/-- An input chord as consumed by the enhanced path of
`ChordProgressionBar.jsx` (lines 116–130): every field other than `time`
and `chord` may be absent. -/
structure EnhancedChord where
  time : ℚ
  chord : String
  startTime : Option ℚ
  endTime : Option ℚ
  duration : Option ℚ
  beats : Option Int
  measures : Option Int
  beat_position : Option Int
  time_signature : Option String
  tempo_bpm : Option ℚ
  chord_type : Option String
  rhythmic_strength : Option ℚ
  confidence : Option ℚ
deriving DecidableEq, Inhabited

/-- The map body of `enhancedProgression` (`ChordProgressionBar.jsx`
lines 116–130).  `next` is `detectedChords[index + 1]`.  The `duration`
fallback `chord.endTime - chord.startTime` is `NaN` (falsy) in JS when
either bound is absent. -/
def enhancedOne (duration bpm : ℚ) (index : Nat) (c : EnhancedChord)
    (next : Option EnhancedChord) : CPBChord :=
  let endFallback :=
    match next with
    | some n => jsOrQ n.time duration
    | none => duration
  { chord := c.chord
    startTime := jsOrOQ c.startTime c.time
    endTime :=
      match c.endTime with
      | some e => if e = 0 then endFallback else e
      | none => endFallback
    duration :=
      match c.duration with
      | some d => if d = 0 then enhancedDurationFallback c else d
      | none => enhancedDurationFallback c
    beats := jsOrOI c.beats 1
    measures := c.measures.getD 0
    beat_position := jsOrOI c.beat_position 1
    time_signature := jsOrOS c.time_signature "4/4"
    tempo_bpm := jsOrOQ c.tempo_bpm bpm
    chord_type := jsOrOS c.chord_type "standard"
    rhythmic_strength := jsOrOQ c.rhythmic_strength (1/2)
    confidence := jsOrOQ c.confidence (4/5)
    index := index }
where
  /-- Fallback `(chord.endTime - chord.startTime) || 4` with NaN falsy. -/
  enhancedDurationFallback (c : EnhancedChord) : ℚ :=
    match c.endTime, c.startTime with
    | some e, some s => if e - s = 0 then 4 else e - s
    | _, _ => 4

/-- Worker for `enhancedProgression`, threading the running index. -/
def enhancedAux (duration bpm : ℚ) : List EnhancedChord → Nat → List CPBChord
  | [], _ => []
  | c :: rest, index =>
    enhancedOne duration bpm index c rest.head? :: enhancedAux duration bpm rest (index + 1)

/-- The `enhancedProgression` map of `ChordProgressionBar.jsx` (lines 116–130). -/
def enhancedProgression (detectedChords : List EnhancedChord) (duration bpm : ℚ) :
    List CPBChord :=
  enhancedAux duration bpm detectedChords 0

/-- Projection used to compare consolidation with run-collapsing: a
segment's label and confidence. -/
def labelConf (t : TimedChord) : String × Option ℚ := (t.chord, t.confidence)

end ChordProgressionBar

namespace ChordListView

/-- One chord cell as pushed into a measure by `processChordData`
(`ChordListView.jsx` lines 33–37). -/
structure MeasureChord where
  chord : String
  beats : ℚ
  originalIndex : Nat
deriving DecidableEq, Inhabited

/-- The beat estimate of `ChordListView.jsx` line 29 before quantization:
`(duration * bpm) / 60 * 4`. -/
def clvBeatEstimate (duration bpm : ℚ) : ℚ := duration * bpm / 60 * 4

/-- The quantized beat count of `ChordListView.jsx` line 29:
`Math.max(0.25, Math.round((duration * bpm) / 60 * 4) / 4)`. -/
def clvBeats (duration bpm : ℚ) : ℚ :=
  max (1/4) ((jsRound (clvBeatEstimate duration bpm) : ℚ) / 4)

end ChordListView

namespace ChordListView

/-- Per-chord processing of `processChordData` (`ChordListView.jsx`
lines 26–37): duration to the next chord (default 4 s for the last), beats
quantized to quarter-beats with a 0.25 floor, chord name transposed by the
supplied `transposeChord`. -/
def clvEntriesAux (transpose : String → String) (bpm : ℚ) :
    List LegacyChord → Nat → List MeasureChord
  | [], _ => []
  | [c], i => [⟨transpose c.chord, clvBeats 4 bpm, i⟩]
  | c :: c2 :: rest, i =>
    ⟨transpose c.chord, clvBeats (c2.time - c.time) bpm, i⟩
      :: clvEntriesAux transpose bpm (c2 :: rest) (i + 1)

/-- All processed chord cells of `processChordData`, in input order. -/
def clvEntries (transpose : String → String) (chordData : List LegacyChord) (bpm : ℚ) :
    List MeasureChord :=
  clvEntriesAux transpose bpm chordData 0

/-- The measure-building loop of `processChordData` (`ChordListView.jsx`
lines 26–52): accumulate cells into the current measure; once the running
beat total reaches `BEATS_PER_MEASURE = 4`, close the measure and reset the
total to zero; a non-empty trailing measure is appended at the end. -/
def buildMeasures : List MeasureChord → List (List MeasureChord) → List MeasureChord → ℚ →
    List (List MeasureChord)
  | [], measures, currentMeasure, _ =>
    if currentMeasure = [] then measures else measures ++ [currentMeasure]
  | e :: rest, measures, currentMeasure, currentBeats =>
    let cm := currentMeasure ++ [e]
    let cb := currentBeats + e.beats
    if cb ≥ 4 then buildMeasures rest (measures ++ [cm]) [] 0
    else buildMeasures rest measures cm cb

/-- Function `processChordData` of `ChordListView.jsx` (lines 18–54). -/
def processChordData (transpose : String → String) (chordData : List LegacyChord) (bpm : ℚ) :
    List (List MeasureChord) :=
  buildMeasures (clvEntries transpose chordData bpm) [] [] 0

end ChordListView

namespace ChordAnalyzer

/-- The note table of `transposeChord` (`ChordAnalyzer.jsx` line 191). -/
def notes : List (List Char) :=
  [['C'], ['C', '#'], ['D'], ['D', '#'], ['E'], ['F'], ['F', '#'],
   ['G'], ['G', '#'], ['A'], ['A', '#'], ['B']]

/-- A chord-name character the regex `^([A-G][#b]?)` accepts as root letter. -/
def isRootLetter (c : Char) : Bool := 'A' ≤ c ∧ c ≤ 'G'

/-- The regex match `^([A-G][#b]?)(.*)$` of `ChordAnalyzer.jsx` line 192:
split a chord name into root (letter plus optional accidental) and suffix. -/
def parseChord : List Char → Option (List Char × List Char)
  | [] => none
  | c :: rest =>
    if isRootLetter c then
      match rest with
      | c2 :: rest2 => if c2 = '#' ∨ c2 = 'b' then some ([c, c2], rest2) else some ([c], rest)
      | [] => some ([c], [])
    else none

/-- JS `root.replace('b', '#')` (roots contain at most one `b`). -/
def normalizeRoot (root : List Char) : List Char :=
  root.map fun c => if c = 'b' then '#' else c

/-- JS `notes[newRootIndex]` where the index is an arbitrary integer:
out-of-range (negative) indices give `undefined`, which string
concatenation renders as `"undefined"`. -/
def noteAt (j : Int) : List Char :=
  if h : 0 ≤ j ∧ j < 12 then
    notes.get ⟨j.toNat, by have h12 : notes.length = 12 := rfl; omega⟩
  else "undefined".data

/-- Function `transposeChord` of `ChordAnalyzer.jsx` (lines 187–205) on character
lists.  The new root index is `(rootIndex + capoFrets + 12) % 12` with JS
`%`, which truncates toward zero (`Int.tmod`) and is negative for negative
operands. -/
def transposeCore (chordName : List Char) (capoFrets : Int) : List Char :=
  if chordName = [] ∨ chordName = ['N'] ∨ capoFrets = 0 then chordName
  else
    match parseChord chordName with
    | none => chordName
    | some (root, suffix) =>
      let normalizedRoot := normalizeRoot root
      let rootIndex := notes.indexOf normalizedRoot
      if rootIndex < notes.length then
        let newRootIndex := Int.tmod ((rootIndex : Int) + capoFrets + 12) 12
        noteAt newRootIndex ++ suffix
      else chordName

/-- Function `transposeChord` of `ChordAnalyzer.jsx` (lines 187–205); the copy in
`JobHistoryModal.jsx` (lines 415–432) is character-for-character identical. -/
def transposeChord (chordName : String) (capoFrets : Int) : String :=
  String.mk (transposeCore chordName.data capoFrets)

/-- A chord-name suffix that does not itself begin with an accidental,
so that re-parsing a transposed name splits root and suffix at the same
place. -/
def suffixOK (suffix : List Char) : Prop :=
  ∀ c ∈ suffix.head?, c ≠ '#' ∧ c ≠ 'b'

end ChordAnalyzer

example : ChordAnalyzer.noteAt 11 = ['B'] := by decide
example : ChordAnalyzer.transposeChord "Dm7" 2 = "Em7" := by decide
example : ChordAnalyzer.transposeChord "Bb" 1 = "Bb" := by decide
example : ChordAnalyzer.transposeChord "Cb" 1 = "D" := by decide
example : ChordAnalyzer.transposeChord "N" 3 = "N" := by decide
example : ChordAnalyzer.transposeChord "B" 20 = "G" := by decide
example : ChordAnalyzer.transposeChord "G" (-20) = "undefined" := by decide
example :
    ChordAnalyzer.transposeChord (ChordAnalyzer.transposeChord "B" 20) (-20)
      = "undefined" := by decide
example :
    ChordListView.clvBeats (1/20) 120 = 1/4 := by
  norm_num [ChordListView.clvBeats, ChordListView.clvBeatEstimate, jsRound]

/-- The twelve chromatic roots in the sharp spelling used by the
detection engine's colon-notation labels. -/
def sharpRoots : List String := ChordAnalyzer.notes.map String.mk

/-- The seven chord qualities handled identically by all three
`normalizeChordName` copies. -/
def coreQualities : List String := ["min", "maj", "dim", "aug", "7", "maj7", "min7"]

/-- All colon-notation labels over the chromatic roots and the shared
core qualities. -/
def coreLabels : List String :=
  (sharpRoots.product coreQualities).map fun p => p.1 ++ ":" ++ p.2

/-! ## Spec comparator -/

/-- Modelled from the spec: the beat-quantization formula of §4.3,
`beats = duration_seconds × bpm / 60`, stated as the pre-rounding beat
estimate that the smoother is specified to use everywhere. -/
def specBeatEstimate (duration bpm : ℚ) : ℚ := duration * bpm / 60

/-! ## Helper lemmas -/

theorem jsOrOQ_bounds (a : Option ℚ) (h : ∀ x, a = some x → 0 ≤ x ∧ x ≤ 1) :
    0 ≤ jsOrOQ a (4/5) ∧ jsOrOQ a (4/5) ≤ 1 := by
  match a with
  | none => norm_num [jsOrOQ]
  | some x =>
    by_cases hx : x = 0
    · norm_num [jsOrOQ, hx]
    · simpa [jsOrOQ, hx] using h x rfl

theorem useBPMDetection_short (chordData : List LegacyChord) (h : chordData.length < 2) :
    MovingWindow.useBPMDetection chordData = 120 := by
  match chordData, h with
  | [], _ => simp [MovingWindow.useBPMDetection]
  | [c], _ => simp [MovingWindow.useBPMDetection]

theorem activeChordAux_lt (currentBeat : ℚ) :
    ∀ (l : List MovingWindow.ChordNode) (cum : ℚ) (i j : Nat),
      MovingWindow.activeChordAux currentBeat cum i l = some j → j < i + l.length := by
  intro l
  induction l with
  | nil => intro cum i j h; simp [MovingWindow.activeChordAux] at h
  | cons n rest ih =>
    intro cum i j h
    rw [MovingWindow.activeChordAux] at h
    by_cases hc : currentBeat < cum + n.durationBeats
    · simp only [if_pos hc, Option.some.injEq] at h
      subst h
      simp
    · simp only [if_neg hc] at h
      have := ih (cum + n.durationBeats) (i + 1) j h
      simp only [List.length_cons]
      omega

theorem activeChordAux_none (currentBeat : ℚ) :
    ∀ (l : List MovingWindow.ChordNode) (cum : ℚ) (i : Nat),
      (∀ n ∈ l, 0 ≤ n.durationBeats) →
      cum + (l.map (·.durationBeats)).sum ≤ currentBeat →
      MovingWindow.activeChordAux currentBeat cum i l = none := by
  intro l
  induction l with
  | nil => intro cum i _ _; simp [MovingWindow.activeChordAux]
  | cons n rest ih =>
    intro cum i hpos hsum
    rw [MovingWindow.activeChordAux]
    have hrest : 0 ≤ (rest.map (·.durationBeats)).sum := by
      apply List.sum_nonneg
      intro x hx
      obtain ⟨u, hu, rfl⟩ := List.mem_map.mp hx
      exact hpos u (List.mem_cons_of_mem _ hu)
    simp only [List.map_cons, List.sum_cons] at hsum
    have hc : ¬ currentBeat < cum + n.durationBeats := by
      push_neg
      linarith
    rw [if_neg hc]
    apply ih (cum + n.durationBeats) (i + 1)
    · intro x hx; exact hpos x (List.mem_cons_of_mem _ hx)
    · linarith

/-- C5: a caller-supplied BPM override inside the sane range 40–220 is
used verbatim by `finalBpm`, and when the override is absent and there
are fewer than two timed chord entries (hence no measurable interval),
`useBPMDetection` does not abort but yields the default BPM 120. -/
theorem c5_bpm_override_and_default (propBpm : Option ℚ) (chordData : List LegacyChord)
    (b : ℚ) :
    (propBpm = some b → 40 ≤ b → b ≤ 220 →
      MovingWindow.finalBpm propBpm chordData = b) ∧
    (propBpm = none → chordData.length < 2 →
      MovingWindow.finalBpm propBpm chordData = 120) := by
  constructor
  · rintro rfl h40 _
    have hb : b ≠ 0 := by positivity
    simp [MovingWindow.finalBpm, jsOrOQ, hb]
  · rintro rfl hlen
    simp [MovingWindow.finalBpm, jsOrOQ, useBPMDetection_short chordData hlen]

/-- Witness for C5 at a concrete input: override 90 is used verbatim, and
a single-chord list with no override yields the fallback 120. -/
theorem c5_witness :
    MovingWindow.finalBpm (some 90) [] = 90 ∧
    MovingWindow.finalBpm none [⟨0, "C", none⟩] = 120 :=
  ⟨(c5_bpm_override_and_default (some 90) [] 90).1 rfl (by norm_num) (by norm_num),
   (c5_bpm_override_and_default none [⟨0, "C", none⟩] 90).2 rfl (by simp)⟩

/-- C8 counterexample: `calculateActiveChord` does not return the last
index for a beat at or beyond the total cumulative beats when a node
carries a negative `durationBeats` — with durations `[5, -3]` the total
is 2, yet beat 3 yields index 0, not the last index 1. -/
theorem c8_counterexample :
    MovingWindow.calculateActiveChord 3
        [⟨"a", "C", 5, none, none⟩, ⟨"b", "D", -3, none, none⟩] = 0 ∧
    (([⟨"a", "C", 5, none, none⟩, ⟨"b", "D", -3, none, none⟩] :
        List MovingWindow.ChordNode).map (·.durationBeats)).sum ≤ 3 ∧
    ([⟨"a", "C", 5, none, none⟩, ⟨"b", "D", -3, none, none⟩] :
        List MovingWindow.ChordNode).length - 1 = 1 ∧
    (0 : Nat) ≠ 1 := by
  refine ⟨?_, by norm_num, by norm_num, by norm_num⟩
  norm_num [MovingWindow.calculateActiveChord, MovingWindow.activeChordAux]

/-- C8 (amended): for every non-empty node list and every beat value the
returned index is within bounds, a beat below the first node's boundary
yields index 0, and — provided every `durationBeats` is nonnegative, as
holds for every node the repository constructs — a beat at or beyond the
total cumulative beats yields the last index. -/
theorem c8_active_chord_total (currentBeat : ℚ) (nodes : List MovingWindow.ChordNode)
    (hne : nodes ≠ []) :
    MovingWindow.calculateActiveChord currentBeat nodes < nodes.length ∧
    (currentBeat < (nodes.headD default).durationBeats →
      MovingWindow.calculateActiveChord currentBeat nodes = 0) ∧
    ((∀ n ∈ nodes, 0 ≤ n.durationBeats) →
      (nodes.map (·.durationBeats)).sum ≤ currentBeat →
      MovingWindow.calculateActiveChord currentBeat nodes = nodes.length - 1) := by
  refine ⟨?_, ?_, ?_⟩
  · rw [MovingWindow.calculateActiveChord, if_neg hne]
    match h : MovingWindow.activeChordAux currentBeat 0 0 nodes with
    | some j =>
      have := activeChordAux_lt currentBeat nodes 0 0 j h
      simpa using this
    | none =>
      have : nodes.length ≠ 0 := fun h0 => hne (List.length_eq_zero.mp h0)
      simp only [Option.getD_none]
      omega
  · intro hlt
    match nodes, hne with
    | n :: rest, _ =>
      rw [MovingWindow.calculateActiveChord, if_neg (List.cons_ne_nil n rest)]
      rw [MovingWindow.activeChordAux]
      simp only [List.headD_cons] at hlt
      rw [if_pos (by linarith [hlt])]
      rfl
  · intro hpos hsum
    rw [MovingWindow.calculateActiveChord, if_neg hne]
    rw [activeChordAux_none currentBeat nodes 0 0 hpos (by linarith)]
    rfl

/-- Witness for C8 at a concrete input: two nodes of 2 beats each, beat 100
(beyond the 4-beat total) yields the last index 1, which is within bounds. -/
theorem c8_witness :
    MovingWindow.calculateActiveChord 100
        [⟨"a", "C", 2, none, none⟩, ⟨"b", "D", 2, none, none⟩] <
      ([⟨"a", "C", 2, none, none⟩, ⟨"b", "D", 2, none, none⟩] :
        List MovingWindow.ChordNode).length ∧
    MovingWindow.calculateActiveChord 100
        [⟨"a", "C", 2, none, none⟩, ⟨"b", "D", 2, none, none⟩] =
      ([⟨"a", "C", 2, none, none⟩, ⟨"b", "D", 2, none, none⟩] :
        List MovingWindow.ChordNode).length - 1 :=
  ⟨(c8_active_chord_total 100 _ (by simp)).1,
   (c8_active_chord_total 100 _ (by simp)).2.2
     (by intro n hn; fin_cases hn <;> norm_num) (by norm_num)⟩

/-- C3 counterexample: `ChordAnalyzer.processedChords` does not derive
beats from `duration × bpm / 60` — for a 1-second chord at 60 BPM the
spec formula gives 1 beat (also after rounding and clamping), but the
code produces 4. -/
theorem c3_counterexample :
    ((ChordAnalyzer.processedChords [⟨0, "C", none⟩, ⟨1, "D", none⟩] 60).headD
        default).beats = 4 ∧
    max 1 (jsRound (specBeatEstimate 1 60)) = 1 ∧
    (4 : Int) ≠ 1 := by
  refine ⟨?_, ?_, by norm_num⟩
  · norm_num [ChordAnalyzer.processedChords, ChordAnalyzer.processCA,
      ChordAnalyzer.caBeatEstimate, jsRound]
  · norm_num [specBeatEstimate, jsRound]

/-- C3 (amended): the pre-rounding beat estimate equals the spec formula
`duration × bpm / 60` only in `ChordProgressionBar`'s legacy path;
`ChordAnalyzer.processedChords`, `convertLegacyToProgression` and
`ChordListView.processChordData` all use four times that formula
(quarter-note subdivision), so the translation of durations into beat
counts is not uniform across the codebase. -/
theorem c3_beat_formula_not_uniform (d bpm : ℚ) :
    ChordProgressionBar.cpbEstimatedBeats d bpm = specBeatEstimate d bpm ∧
    ChordAnalyzer.caBeatEstimate d bpm = 4 * specBeatEstimate d bpm ∧
    MovingWindow.legacyBeatEstimate d bpm = 4 * specBeatEstimate d bpm ∧
    ChordListView.clvBeatEstimate d bpm = 4 * specBeatEstimate d bpm := by
  refine ⟨?_, ?_, ?_, ?_⟩
  · rcases eq_or_ne bpm 0 with rfl | hbpm
    · simp [ChordProgressionBar.cpbEstimatedBeats, specBeatEstimate]
    · rw [ChordProgressionBar.cpbEstimatedBeats, specBeatEstimate]
      field_simp
  · rw [ChordAnalyzer.caBeatEstimate, specBeatEstimate]; ring
  · rw [MovingWindow.legacyBeatEstimate, specBeatEstimate]; ring
  · rw [ChordListView.clvBeatEstimate, specBeatEstimate]; ring

namespace ChordProgressionBar

theorem consolidateAux_ne_nil (cur : TimedChord) (l : List TimedChord) :
    consolidateAux cur l ≠ [] := by
  induction l generalizing cur with
  | nil => simp [consolidateAux]
  | cons t rest ih =>
    rw [consolidateAux]
    by_cases h : t.chord = cur.chord
    · rw [if_pos h]; exact ih _
    · rw [if_neg h]; simp

theorem consolidateAux_head_startTime (cur : TimedChord) (l : List TimedChord)
    (d : TimedChord) :
    ((consolidateAux cur l).headD d).startTime = cur.startTime := by
  induction l generalizing cur with
  | nil => simp [consolidateAux]
  | cons t rest ih =>
    rw [consolidateAux]
    by_cases h : t.chord = cur.chord
    · rw [if_pos h, ih]
    · rw [if_neg h]; simp

theorem consolidateAux_head?_startTime (cur : TimedChord) (l : List TimedChord) :
    ∀ x ∈ (consolidateAux cur l).head?, x.startTime = cur.startTime := by
  induction l generalizing cur with
  | nil => simp [consolidateAux]
  | cons t rest ih =>
    rw [consolidateAux]
    by_cases h : t.chord = cur.chord
    · rw [if_pos h]
      intro x hx
      exact ih { cur with endTime := t.endTime } x hx
    · rw [if_neg h]
      intro x hx
      simp only [List.head?_cons, Option.mem_def, Option.some.injEq] at hx
      subst hx
      rfl

theorem consolidateAux_chain' (cur : TimedChord) (l : List TimedChord)
    (h : List.Chain' (fun a b => a.endTime = b.startTime) (cur :: l)) :
    List.Chain' (fun a b => a.endTime = b.startTime) (consolidateAux cur l) := by
  induction l generalizing cur with
  | nil => simp [consolidateAux]
  | cons t rest ih =>
    rw [List.chain'_cons'] at h
    obtain ⟨hct, hrest⟩ := h
    have hrest' := (List.chain'_cons'.mp hrest)
    rw [consolidateAux]
    by_cases hc : t.chord = cur.chord
    · rw [if_pos hc]
      apply ih
      rw [List.chain'_cons']
      exact ⟨fun b hb => hrest'.1 b hb, hrest'.2⟩
    · rw [if_neg hc]
      rw [List.chain'_cons']
      constructor
      · intro b hb
        have hbs := consolidateAux_head?_startTime t rest b hb
        rw [hbs]
        exact hct t (by simp)
      · exact ih t hrest

end ChordProgressionBar

namespace ChordProgressionBar

theorem consolidateAux_getLast?_endTime (cur : TimedChord) (l : List TimedChord) :
    (consolidateAux cur l).getLast?.map (·.endTime) =
      ((cur :: l).getLast?).map (·.endTime) := by
  induction l generalizing cur with
  | nil => simp [consolidateAux]
  | cons t rest ih =>
    rw [consolidateAux]
    by_cases h : t.chord = cur.chord
    · rw [if_pos h, ih]
      cases rest with
      | nil => simp
      | cons t2 rest2 => simp [List.getLast?_cons_cons]
    · rw [if_neg h]
      obtain ⟨x, xs, hx⟩ : ∃ x xs, consolidateAux t rest = x :: xs := by
        match hh : consolidateAux t rest with
        | [] => exact absurd hh (consolidateAux_ne_nil t rest)
        | x :: xs => exact ⟨x, xs, rfl⟩
      rw [hx, List.getLast?_cons_cons, ← hx, ih, List.getLast?_cons_cons]

theorem withTiming_chain' (data : List LegacyChord) (duration : ℚ) :
    List.Chain' (fun a b => a.endTime = b.startTime) (withTiming data duration) := by
  induction data with
  | nil => simp [withTiming]
  | cons c rest ih =>
    cases rest with
    | nil => simp [withTiming]
    | cons c2 rest2 =>
      rw [withTiming, List.chain'_cons']
      refine ⟨?_, ih⟩
      intro b hb
      cases rest2 with
      | nil =>
        simp only [withTiming, List.head?_cons, Option.mem_def, Option.some.injEq] at hb
        subst hb
        rfl
      | cons c3 rest3 =>
        simp only [withTiming, List.head?_cons, Option.mem_def, Option.some.injEq] at hb
        subst hb
        rfl

theorem withTiming_head_startTime (c : LegacyChord) (rest : List LegacyChord)
    (duration : ℚ) (d : TimedChord) :
    ((withTiming (c :: rest) duration).headD d).startTime = c.time := by
  cases rest with
  | nil => simp [withTiming]
  | cons c2 rest2 => simp [withTiming]

theorem withTiming_getLast?_endTime (data : List LegacyChord) (duration : ℚ)
    (h : data ≠ []) :
    (withTiming data duration).getLast?.map (·.endTime) = some duration := by
  induction data with
  | nil => exact absurd rfl h
  | cons c rest ih =>
    cases rest with
    | nil => simp [withTiming]
    | cons c2 rest2 =>
      rw [withTiming]
      have hne : withTiming (c2 :: rest2) duration ≠ [] := by
        cases rest2 with
        | nil => simp [withTiming]
        | cons c3 rest3 => simp [withTiming]
      obtain ⟨x, xs, hx⟩ : ∃ x xs, withTiming (c2 :: rest2) duration = x :: xs := by
        match hh : withTiming (c2 :: rest2) duration with
        | [] => exact absurd hh hne
        | x :: xs => exact ⟨x, xs, rfl⟩
      rw [hx, List.getLast?_cons_cons, ← hx]
      exact ih (by simp)

theorem consolidatedChords_chain' (data : List LegacyChord) (duration : ℚ) :
    List.Chain' (fun a b => a.endTime = b.startTime) (consolidatedChords data duration) := by
  rw [consolidatedChords]
  match h : withTiming data duration with
  | [] => simp
  | t :: rest =>
    apply consolidateAux_chain'
    rw [← h]
    exact withTiming_chain' data duration

end ChordProgressionBar

namespace ChordAnalyzer

theorem processCA_head_startTime (bpm : ℚ) (c : LegacyChord) (rest : List LegacyChord)
    (i : Nat) (d : CAChord) :
    ((processCA bpm (c :: rest) i).headD d).startTime = c.time := by
  cases rest with
  | nil => simp [processCA]
  | cons c2 rest2 => simp [processCA]

theorem processCA_chain' (bpm : ℚ) (data : List LegacyChord) (i : Nat) :
    List.Chain' (fun a b => a.endTime = b.startTime) (processCA bpm data i) := by
  induction data generalizing i with
  | nil => simp [processCA]
  | cons c rest ih =>
    cases rest with
    | nil => simp [processCA]
    | cons c2 rest2 =>
      rw [processCA, List.chain'_cons']
      refine ⟨?_, ih (i + 1)⟩
      intro b hb
      cases rest2 with
      | nil =>
        simp only [processCA, List.head?_cons, Option.mem_def, Option.some.injEq] at hb
        subst hb
        rfl
      | cons c3 rest3 =>
        simp only [processCA, List.head?_cons, Option.mem_def, Option.some.injEq] at hb
        subst hb
        rfl

theorem processCA_getLast?_endTime (bpm : ℚ) (data : List LegacyChord) (i : Nat)
    (h : data ≠ []) :
    (processCA bpm data i).getLast?.map (·.endTime) =
      (data.getLast?).map (·.time + 4) := by
  induction data generalizing i with
  | nil => exact absurd rfl h
  | cons c rest ih =>
    cases rest with
    | nil => simp [processCA]
    | cons c2 rest2 =>
      rw [processCA]
      have hne : processCA bpm (c2 :: rest2) (i + 1) ≠ [] := by
        cases rest2 with
        | nil => simp [processCA]
        | cons c3 rest3 => simp [processCA]
      obtain ⟨x, xs, hx⟩ : ∃ x xs, processCA bpm (c2 :: rest2) (i + 1) = x :: xs := by
        match hh : processCA bpm (c2 :: rest2) (i + 1) with
        | [] => exact absurd hh hne
        | x :: xs => exact ⟨x, xs, rfl⟩
      rw [hx, List.getLast?_cons_cons, ← hx, ih (i + 1) (by simp), List.getLast?_cons_cons]

end ChordAnalyzer

/-- C1 counterexample: the first segment's `start_time` is not 0 in
general — a single detected chord at time 2 yields a first (and only)
segment starting at 2. -/
theorem c1_counterexample :
    ((ChordProgressionBar.consolidatedChords [⟨2, "C", none⟩] 10).headD
        default).startTime = 2 ∧ (2 : ℚ) ≠ 0 := by
  constructor
  · norm_num [ChordProgressionBar.consolidatedChords, ChordProgressionBar.withTiming,
      ChordProgressionBar.consolidateAux]
  · norm_num

/-- C1 (amended): assembled segments are contiguous and ordered —
`end_time` of each segment equals `start_time` of the next — in both the
`ChordProgressionBar` consolidation path and `ChordAnalyzer.processedChords`;
the first segment's `start_time` equals the first input chord's time
(0 only when the input starts at 0); the final segment's `end_time` is
the supplied audio duration in the consolidation path, while
`ChordAnalyzer.processedChords` ends at the last chord's time + 4
(not clamped to the audio duration). -/
theorem c1_segments_contiguous (data : List LegacyChord) (duration bpm : ℚ)
    (hne : data ≠ []) :
    List.Chain' (fun a b => a.endTime = b.startTime)
      (ChordProgressionBar.consolidatedChords data duration) ∧
    ((ChordProgressionBar.consolidatedChords data duration).headD default).startTime =
      (data.headD default).time ∧
    (ChordProgressionBar.consolidatedChords data duration).getLast?.map (·.endTime) =
      some duration ∧
    List.Chain' (fun a b => a.endTime = b.startTime)
      (ChordAnalyzer.processedChords data bpm) ∧
    ((ChordAnalyzer.processedChords data bpm).headD default).startTime =
      (data.headD default).time ∧
    (ChordAnalyzer.processedChords data bpm).getLast?.map (·.endTime) =
      (data.getLast?).map (·.time + 4) := by
  obtain ⟨c, rest, rfl⟩ : ∃ c rest, data = c :: rest := by
    match data, hne with
    | c :: rest, _ => exact ⟨c, rest, rfl⟩
  refine ⟨ChordProgressionBar.consolidatedChords_chain' _ _, ?_, ?_,
    ChordAnalyzer.processCA_chain' bpm _ 0,
    ChordAnalyzer.processCA_head_startTime bpm c rest 0 default,
    ChordAnalyzer.processCA_getLast?_endTime bpm _ 0 (by simp)⟩
  · rw [ChordProgressionBar.consolidatedChords]
    match h : ChordProgressionBar.withTiming (c :: rest) duration with
    | [] =>
      exfalso
      cases rest with
      | nil => simp [ChordProgressionBar.withTiming] at h
      | cons c2 rest2 => simp [ChordProgressionBar.withTiming] at h
    | t :: ts =>
      rw [ChordProgressionBar.consolidateAux_head_startTime t ts default]
      have := ChordProgressionBar.withTiming_head_startTime c rest duration default
      rw [h] at this
      simpa using this
  · rw [ChordProgressionBar.consolidatedChords]
    match h : ChordProgressionBar.withTiming (c :: rest) duration with
    | [] =>
      exfalso
      cases rest with
      | nil => simp [ChordProgressionBar.withTiming] at h
      | cons c2 rest2 => simp [ChordProgressionBar.withTiming] at h
    | t :: ts =>
      rw [ChordProgressionBar.consolidateAux_getLast?_endTime t ts, ← h]
      exact ChordProgressionBar.withTiming_getLast?_endTime _ duration (by simp)

/-- Witness for C1 at a concrete input: two chords at times 0 and 1 with
audio duration 2 give a first segment starting at 0 and a last segment
ending at the duration. -/
theorem c1_witness :
    ((ChordProgressionBar.consolidatedChords [⟨0, "C", none⟩, ⟨1, "D", none⟩] 2).headD
        default).startTime = (0 : ℚ) ∧
    (ChordProgressionBar.consolidatedChords [⟨0, "C", none⟩, ⟨1, "D", none⟩] 2).getLast?.map
        (·.endTime) = some (2 : ℚ) :=
  ⟨(c1_segments_contiguous [⟨0, "C", none⟩, ⟨1, "D", none⟩] 2 120 (by simp)).2.1,
   (c1_segments_contiguous [⟨0, "C", none⟩, ⟨1, "D", none⟩] 2 120 (by simp)).2.2.1⟩

namespace ChordProgressionBar

theorem consolidateAux_map_labelConf (cur : TimedChord) (l : List TimedChord) :
    (consolidateAux cur l).map labelConf =
      List.destutter' (fun a b => a.1 ≠ b.1) (labelConf cur) (l.map labelConf) := by
  induction l generalizing cur with
  | nil => simp [consolidateAux]
  | cons t rest ih =>
    rw [consolidateAux]
    by_cases h : t.chord = cur.chord
    · rw [if_pos h, ih { cur with endTime := t.endTime }]
      have hR' : ¬ ((labelConf cur).1 ≠ (labelConf t).1) := by
        simp [labelConf, h]
      rw [List.map_cons, List.destutter'_cons, if_neg hR']
      rfl
    · have hR : (labelConf cur).1 ≠ (labelConf t).1 := fun hh => h hh.symm
      rw [if_neg h, List.map_cons, List.map_cons, List.destutter'_cons, if_pos hR, ih t]

end ChordProgressionBar

/-- C4 counterexample: a merged run's confidence is the first absorbed
frame's confidence, not the mean — two consecutive "C" frames with
confidences 2/5 and 4/5 consolidate into one segment of confidence 2/5,
while the mean is 3/5. -/
theorem c4_counterexample :
    ChordProgressionBar.consolidatedChords
        [⟨0, "C", some (2/5)⟩, ⟨1, "C", some (4/5)⟩] 2 =
      [⟨0, 2, "C", some (2/5)⟩] ∧
    (2/5 : ℚ) ≠ (2/5 + 4/5) / 2 := by
  constructor
  · norm_num [ChordProgressionBar.consolidatedChords, ChordProgressionBar.withTiming,
      ChordProgressionBar.consolidateAux, jsOrS]
    decide
  · norm_num

/-- C4 (amended): raw segmentation turns each maximal run of identical
consecutive labels into exactly one segment — the consolidated label and
confidence sequence is the frame sequence with consecutive duplicate
labels collapsed, keeping the first frame of each run — so no two
adjacent output segments carry the same label, and a merged segment's
confidence equals the confidence of the first frame it absorbed (not the
mean of its frames' confidences). -/
theorem c4_raw_segmentation (data : List LegacyChord) (duration : ℚ) :
    (ChordProgressionBar.consolidatedChords data duration).map
        ChordProgressionBar.labelConf =
      ((ChordProgressionBar.withTiming data duration).map
        ChordProgressionBar.labelConf).destutter (fun a b => a.1 ≠ b.1) ∧
    List.Chain' (fun a b => a.chord ≠ b.chord)
      (ChordProgressionBar.consolidatedChords data duration) := by
  constructor
  · rw [ChordProgressionBar.consolidatedChords]
    match h : ChordProgressionBar.withTiming data duration with
    | [] => simp [List.destutter]
    | t :: rest =>
      rw [ChordProgressionBar.consolidateAux_map_labelConf, List.map_cons,
        List.destutter_cons']
  · rw [ChordProgressionBar.consolidatedChords]
    match h : ChordProgressionBar.withTiming data duration with
    | [] => simp
    | t :: rest =>
      have hchain := List.destutter'_is_chain' (fun (a b : String × Option ℚ) => a.1 ≠ b.1)
        (l := rest.map ChordProgressionBar.labelConf) (ChordProgressionBar.labelConf t)
      rw [← ChordProgressionBar.consolidateAux_map_labelConf] at hchain
      exact (List.chain'_map ChordProgressionBar.labelConf).mp hchain

namespace ChordProgressionBar

theorem withTiming_confidence_mem (data : List LegacyChord) (duration : ℚ) :
    ∀ t ∈ withTiming data duration, ∃ c ∈ data, t.confidence = c.confidence := by
  induction data with
  | nil => simp [withTiming]
  | cons c rest ih =>
    cases rest with
    | nil =>
      intro t ht
      simp only [withTiming, List.mem_singleton] at ht
      exact ⟨c, by simp, by rw [ht]⟩
    | cons c2 rest2 =>
      intro t ht
      rw [withTiming] at ht
      rcases List.mem_cons.mp ht with rfl | ht2
      · exact ⟨c, by simp, rfl⟩
      · obtain ⟨u, hu, he⟩ := ih t ht2
        exact ⟨u, List.mem_cons_of_mem _ hu, he⟩

theorem consolidateAux_confidence_mem (cur : TimedChord) (l : List TimedChord) :
    ∀ t ∈ consolidateAux cur l,
      t.confidence = cur.confidence ∨ ∃ u ∈ l, t.confidence = u.confidence := by
  induction l generalizing cur with
  | nil =>
    intro t ht
    simp only [consolidateAux, List.mem_singleton] at ht
    exact Or.inl (by rw [ht])
  | cons x rest ih =>
    intro t ht
    rw [consolidateAux] at ht
    by_cases h : x.chord = cur.chord
    · rw [if_pos h] at ht
      rcases ih { cur with endTime := x.endTime } t ht with hc | ⟨u, hu, he⟩
      · exact Or.inl hc
      · exact Or.inr ⟨u, List.mem_cons_of_mem _ hu, he⟩
    · rw [if_neg h] at ht
      rcases List.mem_cons.mp ht with rfl | ht2
      · exact Or.inl rfl
      · rcases ih x t ht2 with hc | ⟨u, hu, he⟩
        · exact Or.inr ⟨x, by simp, hc⟩
        · exact Or.inr ⟨u, List.mem_cons_of_mem _ hu, he⟩

theorem consolidatedChords_confidence_mem (data : List LegacyChord) (duration : ℚ) :
    ∀ t ∈ consolidatedChords data duration, ∃ c ∈ data, t.confidence = c.confidence := by
  rw [consolidatedChords]
  match h : withTiming data duration with
  | [] => simp
  | x :: rest =>
    intro t ht
    have hmem : ∀ u ∈ x :: rest, ∃ c ∈ data, u.confidence = c.confidence := by
      rw [← h]
      exact withTiming_confidence_mem data duration
    rcases consolidateAux_confidence_mem x rest t ht with hc | ⟨u, hu, he⟩
    · obtain ⟨c, hcd, he2⟩ := hmem x (by simp)
      exact ⟨c, hcd, by rw [hc, he2]⟩
    · obtain ⟨c, hcd, he2⟩ := hmem u (List.mem_cons_of_mem _ hu)
      exact ⟨c, hcd, by rw [he, he2]⟩

theorem enhancedAux_confidence_mem (duration bpm : ℚ) (data : List EnhancedChord) :
    ∀ i, ∀ s ∈ enhancedAux duration bpm data i,
      ∃ c ∈ data, s.confidence = jsOrOQ c.confidence (4/5) := by
  induction data with
  | nil => intro i s hs; simp [enhancedAux] at hs
  | cons c rest ih =>
    intro i s hs
    rw [enhancedAux] at hs
    rcases List.mem_cons.mp hs with rfl | hs2
    · exact ⟨c, by simp, rfl⟩
    · obtain ⟨u, hu, he⟩ := ih (i + 1) s hs2
      exact ⟨u, List.mem_cons_of_mem _ hu, he⟩

end ChordProgressionBar

/-- C7: if every input chord's confidence lies in [0,1] (when present),
then every segment of the assembled progression has confidence in [0,1],
in both the enhanced-data path and the legacy consolidation path of
`ChordProgressionBar` — absent (or zero, which JS `||` treats as falsy)
confidences are replaced by the fixed default 0.8. -/
theorem c7_confidence_bounds :
    (∀ (data : List ChordProgressionBar.EnhancedChord) (duration bpm : ℚ),
      (∀ c ∈ data, ∀ x, c.confidence = some x → 0 ≤ x ∧ x ≤ 1) →
      ∀ s ∈ ChordProgressionBar.enhancedProgression data duration bpm,
        0 ≤ s.confidence ∧ s.confidence ≤ 1) ∧
    (∀ (data : List LegacyChord) (duration bpm : ℚ),
      (∀ c ∈ data, ∀ x, c.confidence = some x → 0 ≤ x ∧ x ≤ 1) →
      ∀ s ∈ ChordProgressionBar.processedChords data duration bpm,
        0 ≤ s.confidence ∧ s.confidence ≤ 1) := by
  constructor
  · intro data duration bpm hin s hs
    obtain ⟨c, hc, he⟩ :=
      ChordProgressionBar.enhancedAux_confidence_mem duration bpm data 0 s hs
    rw [he]
    exact jsOrOQ_bounds c.confidence (hin c hc)
  · intro data duration bpm hin s hs
    rw [ChordProgressionBar.processedChords] at hs
    obtain ⟨⟨i, t⟩, hmem, rfl⟩ := List.mem_map.mp hs
    have ht : t ∈ ChordProgressionBar.consolidatedChords data duration := by
      have h := List.mem_enum_iff_getElem?.mp hmem
      exact List.getElem?_mem h
    obtain ⟨c, hc, he⟩ :=
      ChordProgressionBar.consolidatedChords_confidence_mem data duration t ht
    show 0 ≤ jsOrOQ t.confidence (4/5) ∧ jsOrOQ t.confidence (4/5) ≤ 1
    rw [he]
    exact jsOrOQ_bounds c.confidence (hin c hc)

/-- Witness for C7 at a concrete input: one legacy chord of confidence
0.9 and one enhanced chord with no confidence (default 0.8). -/
theorem c7_witness :
    (∀ s ∈ ChordProgressionBar.enhancedProgression
        [{ time := 0, chord := "C", startTime := none, endTime := none, duration := none,
           beats := none, measures := none, beat_position := none, time_signature := none,
           tempo_bpm := none, chord_type := none, rhythmic_strength := none,
           confidence := none }] 4 120,
      0 ≤ s.confidence ∧ s.confidence ≤ 1) ∧
    (∀ s ∈ ChordProgressionBar.processedChords [⟨0, "C", some (9/10)⟩] 4 120,
      0 ≤ s.confidence ∧ s.confidence ≤ 1) :=
  ⟨c7_confidence_bounds.1 _ 4 120
    (by intro c hc x hx; simp only [List.mem_singleton] at hc; subst hc; simp at hx),
   c7_confidence_bounds.2 _ 4 120
    (by
      intro c hc x hx
      simp only [List.mem_singleton] at hc
      subst hc
      simp only [Option.some.injEq] at hx
      subst hx
      norm_num)⟩

namespace ChordListView

theorem buildMeasures_flatten (l : List MeasureChord) :
    ∀ (ms : List (List MeasureChord)) (cm : List MeasureChord) (cb : ℚ),
      (buildMeasures l ms cm cb).flatten = ms.flatten ++ cm ++ l := by
  induction l with
  | nil =>
    intro ms cm cb
    rw [buildMeasures]
    by_cases h : cm = []
    · rw [if_pos h, h]; simp
    · rw [if_neg h]; simp
  | cons e rest ih =>
    intro ms cm cb
    rw [buildMeasures]
    by_cases h : cb + e.beats ≥ 4
    · rw [if_pos h, ih]
      simp
    · rw [if_neg h, ih]
      simp

theorem buildMeasures_dropLast_sum (l : List MeasureChord) :
    ∀ (ms : List (List MeasureChord)) (cm : List MeasureChord) (cb : ℚ),
      (∀ m ∈ ms, 4 ≤ (m.map (·.beats)).sum) →
      cb = (cm.map (·.beats)).sum →
      ∀ m ∈ (buildMeasures l ms cm cb).dropLast, 4 ≤ (m.map (·.beats)).sum := by
  induction l with
  | nil =>
    intro ms cm cb hms _ m hm
    rw [buildMeasures] at hm
    by_cases h : cm = []
    · rw [if_pos h] at hm
      exact hms m (List.dropLast_sublist ms |>.mem hm)
    · rw [if_neg h, List.dropLast_concat] at hm
      exact hms m hm
  | cons e rest ih =>
    intro ms cm cb hms hcb m hm
    rw [buildMeasures] at hm
    by_cases h : cb + e.beats ≥ 4
    · rw [if_pos h] at hm
      refine ih (ms ++ [cm ++ [e]]) [] 0 ?_ (by simp) m hm
      intro m2 hm2
      rcases List.mem_append.mp hm2 with hm3 | hm3
      · exact hms m2 hm3
      · rw [List.mem_singleton.mp hm3]
        simp only [List.map_append, List.sum_append, List.map_cons, List.sum_cons,
          List.map_nil, List.sum_nil]
        rw [hcb] at h
        linarith
    · rw [if_neg h] at hm
      refine ih ms (cm ++ [e]) (cb + e.beats) hms ?_ m hm
      simp [hcb]

theorem clvBeats_eq (duration bpm : ℚ) :
    clvBeats duration bpm =
      ((max 1 (jsRound (clvBeatEstimate duration bpm)) : Int) : ℚ) / 4 := by
  rw [clvBeats]
  rcases le_or_lt 1 (jsRound (clvBeatEstimate duration bpm)) with h | h
  · rw [max_eq_right, max_eq_right h]
    have : (1 : ℚ) ≤ ((jsRound (clvBeatEstimate duration bpm) : Int) : ℚ) := by
      exact_mod_cast h
    linarith
  · have h0 : jsRound (clvBeatEstimate duration bpm) ≤ 0 := by omega
    rw [max_eq_left, max_eq_left (by omega)]
    · norm_num
    · have : ((jsRound (clvBeatEstimate duration bpm) : Int) : ℚ) ≤ 0 := by
        exact_mod_cast h0
      linarith

theorem clvEntriesAux_beats (transpose : String → String) (bpm : ℚ)
    (data : List LegacyChord) :
    ∀ i, ∀ e ∈ clvEntriesAux transpose bpm data i,
      ∃ k : ℤ, 1 ≤ k ∧ e.beats = (k : ℚ) / 4 := by
  induction data with
  | nil => intro i e he; simp [clvEntriesAux] at he
  | cons c rest ih =>
    intro i e he
    cases rest with
    | nil =>
      simp only [clvEntriesAux, List.mem_singleton] at he
      subst he
      exact ⟨max 1 (jsRound (clvBeatEstimate 4 bpm)), le_max_left _ _, clvBeats_eq 4 bpm⟩
    | cons c2 rest2 =>
      rw [clvEntriesAux] at he
      rcases List.mem_cons.mp he with rfl | he2
      · exact ⟨max 1 (jsRound (clvBeatEstimate (c2.time - c.time) bpm)), le_max_left _ _,
          clvBeats_eq _ bpm⟩
      · exact ih (i + 1) e he2

theorem clvEntriesAux_indices (transpose : String → String) (bpm : ℚ)
    (data : List LegacyChord) :
    ∀ i, (clvEntriesAux transpose bpm data i).map (·.originalIndex) =
      List.range' i data.length := by
  induction data with
  | nil => intro i; simp [clvEntriesAux]
  | cons c rest ih =>
    intro i
    cases rest with
    | nil => simp [clvEntriesAux, List.range']
    | cons c2 rest2 =>
      rw [clvEntriesAux, List.map_cons, ih (i + 1)]
      simp [List.range']

end ChordListView

/-- C10: `processChordData` partitions the processed input chords, in
their original order, into measures: concatenating the measures yields
exactly the processed input list (whose `originalIndex` sequence is
`0, 1, …, n−1`), every measure except possibly the last totals at least
4 beats, and every cell's beats value is a positive multiple of 1/4
(minimum 1/4). -/
theorem c10_measures_partition (transpose : String → String) (data : List LegacyChord)
    (bpm : ℚ) :
    (ChordListView.processChordData transpose data bpm).flatten =
      ChordListView.clvEntries transpose data bpm ∧
    ((ChordListView.processChordData transpose data bpm).flatten).map (·.originalIndex) =
      List.range data.length ∧
    (∀ m ∈ (ChordListView.processChordData transpose data bpm).dropLast,
      4 ≤ (m.map (·.beats)).sum) ∧
    (∀ m ∈ ChordListView.processChordData transpose data bpm, ∀ e ∈ m,
      (1/4 : ℚ) ≤ e.beats ∧ ∃ k : ℤ, 1 ≤ k ∧ e.beats = (k : ℚ) / 4) := by
  have hflat : (ChordListView.processChordData transpose data bpm).flatten =
      ChordListView.clvEntries transpose data bpm := by
    rw [ChordListView.processChordData, ChordListView.buildMeasures_flatten]
    simp
  refine ⟨hflat, ?_, ?_, ?_⟩
  · rw [hflat, ChordListView.clvEntries, ChordListView.clvEntriesAux_indices]
    exact (List.range_eq_range' data.length).symm ▸ rfl
  · exact ChordListView.buildMeasures_dropLast_sum _ [] [] 0 (by simp) (by simp)
  · intro m hm e he
    have hmem : e ∈ (ChordListView.processChordData transpose data bpm).flatten :=
      List.mem_flatten.mpr ⟨m, hm, he⟩
    rw [hflat] at hmem
    obtain ⟨k, hk, hbeats⟩ :=
      ChordListView.clvEntriesAux_beats transpose bpm data 0 e hmem
    refine ⟨?_, k, hk, hbeats⟩
    rw [hbeats]
    have : (1 : ℚ) ≤ (k : ℚ) := by exact_mod_cast hk
    linarith

/-- Witness for C10 at a concrete input: two chords 0.05 s apart at
120 BPM produce a single measure holding both cells in order. -/
theorem c10_witness :
    (∀ m ∈ ChordListView.processChordData (fun s => ChordAnalyzer.transposeChord s 0)
        [⟨0, "C", none⟩, ⟨1/20, "D", none⟩] 120, ∀ e ∈ m,
      (1/4 : ℚ) ≤ e.beats ∧ ∃ k : ℤ, 1 ≤ k ∧ e.beats = (k : ℚ) / 4) ∧
    ((ChordListView.processChordData (fun s => ChordAnalyzer.transposeChord s 0)
        [⟨0, "C", none⟩, ⟨1/20, "D", none⟩] 120).flatten).map (·.originalIndex) =
      List.range 2 :=
  ⟨(c10_measures_partition _ [⟨0, "C", none⟩, ⟨1/20, "D", none⟩] 120).2.2.2,
   (c10_measures_partition _ [⟨0, "C", none⟩, ⟨1/20, "D", none⟩] 120).2.1⟩

namespace ChordAnalyzer

theorem processCA_beats_ge_one (bpm : ℚ) (data : List LegacyChord) :
    ∀ i, ∀ e ∈ processCA bpm data i, 1 ≤ e.beats := by
  induction data with
  | nil => intro i e he; simp [processCA] at he
  | cons c rest ih =>
    intro i e he
    cases rest with
    | nil =>
      simp only [processCA, List.mem_singleton] at he
      subst he
      exact le_max_left _ _
    | cons c2 rest2 =>
      rw [processCA] at he
      rcases List.mem_cons.mp he with rfl | he2
      · exact le_max_left _ _
      · exact ih (i + 1) e he2

end ChordAnalyzer

namespace MovingWindow

theorem convertNodes_durationBeats (detectedBpm : ℚ) (data : List LegacyChord) :
    ∀ i, ∀ n ∈ convertNodes detectedBpm data i,
      1 ≤ n.durationBeats ∧ ∃ k : ℤ, n.durationBeats = (k : ℚ) := by
  induction data with
  | nil => intro i n hn; simp [convertNodes] at hn
  | cons c rest ih =>
    intro i n hn
    cases rest with
    | nil =>
      simp only [convertNodes, List.mem_singleton] at hn
      subst hn
      refine ⟨?_, max 1 (jsRound (legacyBeatEstimate 4 detectedBpm)), rfl⟩
      show (1 : ℚ) ≤ ((max 1 (jsRound (legacyBeatEstimate 4 detectedBpm)) : ℤ) : ℚ)
      exact_mod_cast le_max_left 1 (jsRound (legacyBeatEstimate 4 detectedBpm))
    | cons c2 rest2 =>
      rw [convertNodes] at hn
      rcases List.mem_cons.mp hn with rfl | hn2
      · refine ⟨?_, max 1 (jsRound (legacyBeatEstimate (c2.time - c.time) detectedBpm)), rfl⟩
        show (1 : ℚ) ≤
          ((max 1 (jsRound (legacyBeatEstimate (c2.time - c.time) detectedBpm)) : ℤ) : ℚ)
        exact_mod_cast le_max_left 1 _
      · exact ih (i + 1) n hn2

end MovingWindow

namespace ChordProgressionBar

theorem cpbActualBeats_ge_one (chordDuration bpm : ℚ) :
    1 ≤ cpbActualBeats chordDuration bpm := by
  rw [cpbActualBeats]
  by_cases h : bpm < 80 ∧ chordDuration > 1
  · rw [if_pos h]
    have := le_max_left (2 : Int)
      (max 1 (jsRound (cpbEstimatedBeats chordDuration bpm)))
    omega
  · rw [if_neg h]
    exact le_max_left _ _

end ChordProgressionBar

/-- C2 counterexample: `ChordListView.processChordData` produces a beats
value of 1/4 — not an integer and less than 1 — for a chord 0.05 s long
at 120 BPM, so not every output segment's beats value is an integer
clamped to a minimum of 1. -/
theorem c2_counterexample :
    (((ChordListView.processChordData (fun s => ChordAnalyzer.transposeChord s 0)
          [⟨0, "C", none⟩, ⟨1/20, "D", none⟩] 120).headD []).headD default).beats
      = 1/4 ∧
    ¬ (1 : ℚ) ≤ 1/4 := by
  constructor
  · norm_num [ChordListView.processChordData, ChordListView.clvEntries,
      ChordListView.clvEntriesAux, ChordListView.buildMeasures, ChordListView.clvBeats,
      ChordListView.clvBeatEstimate, jsRound]
  · norm_num

/-- C2 (amended): the integer-with-minimum-1 clamp holds in
`ChordAnalyzer.processedChords`, in `convertLegacyToProgression` and in
`ChordProgressionBar`'s legacy path — beats there is an integer at least
1, so beats=0 is never produced and a chord shorter than one beat still
receives beats=1; `ChordListView.processChordData`, however, quantizes
to quarter-beats with a minimum of 1/4, which is never 0 but can be a
non-integer below 1. -/
theorem c2_beats_minimum :
    (∀ (data : List LegacyChord) (bpm : ℚ),
      ∀ e ∈ ChordAnalyzer.processedChords data bpm, 1 ≤ e.beats) ∧
    (∀ (data : List LegacyChord) (bpm : ℚ) (p : MovingWindow.Progression),
      MovingWindow.convertLegacyToProgression data bpm = some p →
      ∀ n ∈ p.nodes, 1 ≤ n.durationBeats ∧ ∃ k : ℤ, n.durationBeats = (k : ℚ)) ∧
    (∀ (data : List LegacyChord) (duration bpm : ℚ),
      ∀ s ∈ ChordProgressionBar.processedChords data duration bpm, 1 ≤ s.beats) ∧
    (∀ (transpose : String → String) (data : List LegacyChord) (bpm : ℚ),
      ∀ m ∈ ChordListView.processChordData transpose data bpm, ∀ e ∈ m,
        (1/4 : ℚ) ≤ e.beats ∧ ∃ k : ℤ, 1 ≤ k ∧ e.beats = (k : ℚ) / 4) := by
  refine ⟨?_, ?_, ?_, ?_⟩
  · intro data bpm e he
    exact ChordAnalyzer.processCA_beats_ge_one bpm data 0 e he
  · intro data bpm p hp n hn
    rw [MovingWindow.convertLegacyToProgression] at hp
    by_cases h : data = []
    · rw [if_pos h] at hp; exact absurd hp (by simp)
    · rw [if_neg h] at hp
      simp only [Option.some.injEq] at hp
      subst hp
      exact MovingWindow.convertNodes_durationBeats bpm data 0 n hn
  · intro data duration bpm s hs
    rw [ChordProgressionBar.processedChords] at hs
    obtain ⟨⟨i, t⟩, _, rfl⟩ := List.mem_map.mp hs
    exact ChordProgressionBar.cpbActualBeats_ge_one _ bpm
  · intro transpose data bpm m hm e he
    have hmem : e ∈ (ChordListView.processChordData transpose data bpm).flatten :=
      List.mem_flatten.mpr ⟨m, hm, he⟩
    rw [ChordListView.processChordData, ChordListView.buildMeasures_flatten] at hmem
    simp only [List.flatten_nil, List.nil_append, List.append_nil] at hmem
    obtain ⟨k, hk, hbeats⟩ :=
      ChordListView.clvEntriesAux_beats transpose bpm data 0 e hmem
    refine ⟨?_, k, hk, hbeats⟩
    rw [hbeats]
    have : (1 : ℚ) ≤ (k : ℚ) := by exact_mod_cast hk
    linarith

/-- Witness for C2 at a concrete input: a 0.05 s chord at 120 BPM — far
shorter than one beat — still gets beats 1 in `ChordAnalyzer.processedChords`. -/
theorem c2_witness :
    ∀ e ∈ ChordAnalyzer.processedChords [⟨0, "C", none⟩, ⟨1/20, "D", none⟩] 120,
      1 ≤ e.beats :=
  c2_beats_minimum.1 [⟨0, "C", none⟩, ⟨1/20, "D", none⟩] 120

/-- C6 counterexample: the normalization mapping is not round-trip safe
and its copies disagree — the distinct labels `C:hdim7` and `C:m7b5`
collide in the part_003 copy, and on `C:sus2` the part_005 copy (which
defaults unknown qualities to the bare root) differs from the part_003
copy. -/
theorem c6_counterexample :
    Part003.normalizeChordName "C:hdim7" = Part003.normalizeChordName "C:m7b5" ∧
    ("C:hdim7" : String) ≠ "C:m7b5" ∧
    Part005.normalizeChordName "C:sus2" ≠ Part003.normalizeChordName "C:sus2" := by
  decide

/-- C6 (amended): restricted to the seven shared core qualities (min,
maj, dim, aug, 7, maj7, min7) over the twelve chromatic roots, the three
`normalizeChordName` copies compute the same function, and that common
mapping is injective (distinct colon-notation labels produce distinct
display names, so the internal label is recoverable); outside this core
the copies disagree (e.g. on `sus2`) and aliases such as
`hdim7`/`m7b5` intentionally collapse. -/
theorem c6_core_normalization :
    (∀ s ∈ coreLabels,
      Part005.normalizeChordName s = Part003.normalizeChordName s ∧
      Part003.normalizeChordName s = Part004.normalizeChordName s) ∧
    (coreLabels.map Part003.normalizeChordName).Nodup := by
  decide

/-- Witness for C6 at a concrete input: the shared core label `D:min`
normalizes identically in all three copies. -/
theorem c6_witness :
    Part005.normalizeChordName "D:min" = Part003.normalizeChordName "D:min" ∧
    Part003.normalizeChordName "D:min" = Part004.normalizeChordName "D:min" :=
  c6_core_normalization.1 "D:min" (by decide)

namespace ChordAnalyzer

theorem parseChord_cons1 (c : Char) (hc : isRootLetter c = true) (suffix : List Char)
    (hs : suffixOK suffix) :
    parseChord (c :: suffix) = some ([c], suffix) := by
  cases suffix with
  | nil => simp [parseChord, hc]
  | cons x rest =>
    have hx := hs x (by simp)
    simp [parseChord, hc, hx.1, hx.2]

theorem parseChord_cons2 (c : Char) (hc : isRootLetter c = true) (a : Char)
    (ha : a = '#' ∨ a = 'b') (suffix : List Char) :
    parseChord (c :: a :: suffix) = some ([c, a], suffix) := by
  simp [parseChord, hc, ha]

theorem parse_note_append (i : Nat) (h : i < 12) (suffix : List Char)
    (hs : suffixOK suffix) :
    parseChord (notes.get ⟨i, h⟩ ++ suffix) = some (notes.get ⟨i, h⟩, suffix) := by
  interval_cases i
  · exact parseChord_cons1 'C' (by decide) suffix hs
  · exact parseChord_cons2 'C' (by decide) '#' (by decide) suffix
  · exact parseChord_cons1 'D' (by decide) suffix hs
  · exact parseChord_cons2 'D' (by decide) '#' (by decide) suffix
  · exact parseChord_cons1 'E' (by decide) suffix hs
  · exact parseChord_cons1 'F' (by decide) suffix hs
  · exact parseChord_cons2 'F' (by decide) '#' (by decide) suffix
  · exact parseChord_cons1 'G' (by decide) suffix hs
  · exact parseChord_cons2 'G' (by decide) '#' (by decide) suffix
  · exact parseChord_cons1 'A' (by decide) suffix hs
  · exact parseChord_cons2 'A' (by decide) '#' (by decide) suffix
  · exact parseChord_cons1 'B' (by decide) suffix hs

theorem note_normalize_indexOf (i : Nat) (h : i < 12) :
    normalizeRoot (notes.get ⟨i, h⟩) = notes.get ⟨i, h⟩ ∧
    notes.indexOf (notes.get ⟨i, h⟩) = i := by
  interval_cases i <;> exact ⟨rfl, rfl⟩

theorem transposeCore_note (i : Nat) (h : i < 12) (k : Int) (hk : k ≠ 0)
    (suffix : List Char) (hs : suffixOK suffix) :
    transposeCore (notes.get ⟨i, h⟩ ++ suffix) k =
      noteAt (((i : Int) + k + 12).tmod 12) ++ suffix := by
  have hparse := parse_note_append i h suffix hs
  have hnorm := note_normalize_indexOf i h
  have hguard : ¬ (notes.get ⟨i, h⟩ ++ suffix = [] ∨ notes.get ⟨i, h⟩ ++ suffix = ['N'] ∨
      k = 0) := by
    push_neg
    refine ⟨?_, ?_, hk⟩
    · intro hnil
      rw [hnil] at hparse
      simp [parseChord] at hparse
    · intro hN
      rw [hN] at hparse
      simp [parseChord, isRootLetter] at hparse
  rw [transposeCore, if_neg hguard, hparse]
  simp only
  rw [hnorm.1, hnorm.2]
  have h12 : notes.length = 12 := rfl
  rw [if_pos (by omega)]

theorem tmod_note_bounds (a : Int) (h0 : 0 ≤ a) :
    0 ≤ a.tmod 12 ∧ a.tmod 12 < 12 ∧ a.tmod 12 = a % 12 := by
  rw [Int.tmod_eq_emod h0 (by norm_num)]
  exact ⟨Int.emod_nonneg _ (by norm_num), Int.emod_lt_of_pos _ (by norm_num), rfl⟩

theorem noteAt_bounded (jv : Int) (h0 : 0 ≤ jv) (h12 : jv < 12) :
    ∃ hlt : jv.toNat < 12, noteAt jv = notes.get ⟨jv.toNat, hlt⟩ := by
  refine ⟨by omega, ?_⟩
  rw [noteAt, dif_pos ⟨h0, h12⟩]

end ChordAnalyzer

/-- C9 counterexample: transposing by +k and then by −k does not return
the original chord name for every k — with k = 20 the second step
computes a negative JS array index (`7 − 20 + 12` ≡ −1 under JS `%`), so
`transposeChord(transposeChord("B", 20), −20)` is the string
`"undefined"`, not `"B"`. -/
theorem c9_counterexample :
    ChordAnalyzer.transposeChord (ChordAnalyzer.transposeChord "B" 20) (-20) =
      "undefined" ∧
    ("undefined" : String) ≠ "B" := by
  decide

/-- C9 (amended): `transposeCore` returns its input unchanged when
`capoFrets` is 0 or the name is empty or `'N'`; and for every chord name
whose root is one of the twelve natural-or-sharp note names and whose
suffix does not itself begin with an accidental, for every capo amount k
in the slider range −12..12, transposition maps the root to another note
of the table while preserving the suffix, and transposing by +k and then
by −k returns the original name. -/
theorem c9_transpose_roundtrip :
    (∀ name : List Char, ChordAnalyzer.transposeCore name 0 = name) ∧
    (∀ k : Int, ChordAnalyzer.transposeCore [] k = [] ∧
      ChordAnalyzer.transposeCore ['N'] k = ['N']) ∧
    (∀ (i : Nat) (h : i < 12) (k : Int), -12 ≤ k → k ≤ 12 →
      ∀ suffix : List Char, ChordAnalyzer.suffixOK suffix →
      (∃ (j : Nat) (hj : j < 12),
        ChordAnalyzer.transposeCore (ChordAnalyzer.notes.get ⟨i, h⟩ ++ suffix) k =
          ChordAnalyzer.notes.get ⟨j, hj⟩ ++ suffix) ∧
      ChordAnalyzer.transposeCore
          (ChordAnalyzer.transposeCore (ChordAnalyzer.notes.get ⟨i, h⟩ ++ suffix) k) (-k) =
        ChordAnalyzer.notes.get ⟨i, h⟩ ++ suffix) := by
  refine ⟨?_, ?_, ?_⟩
  · intro name
    simp [ChordAnalyzer.transposeCore]
  · intro k
    constructor <;> simp [ChordAnalyzer.transposeCore]
  · intro i h k hk1 hk2 suffix hs
    by_cases hk0 : k = 0
    · subst hk0
      simp only [neg_zero]
      constructor
      · exact ⟨i, h, by simp [ChordAnalyzer.transposeCore]⟩
      · simp [ChordAnalyzer.transposeCore]
    · have ht := ChordAnalyzer.transposeCore_note i h k hk0 suffix hs
      have h0a : (0 : Int) ≤ (i : Int) + k + 12 := by omega
      obtain ⟨hj0, hj12, hjeq⟩ := ChordAnalyzer.tmod_note_bounds ((i : Int) + k + 12) h0a
      obtain ⟨hlt, hnote⟩ := ChordAnalyzer.noteAt_bounded _ hj0 hj12
      have hcast : (((((i : Int) + k + 12).tmod 12).toNat : Int)) =
          ((i : Int) + k + 12).tmod 12 := Int.toNat_of_nonneg hj0
      constructor
      · exact ⟨_, hlt, by rw [ht, hnote]⟩
      · rw [ht, hnote]
        have ht2 := ChordAnalyzer.transposeCore_note _ hlt (-k) (neg_ne_zero.mpr hk0)
          suffix hs
        rw [ht2]
        have h0b : (0 : Int) ≤
            (((((i : Int) + k + 12).tmod 12).toNat : Int)) + -k + 12 := by omega
        obtain ⟨hb0, hb12, hbeq⟩ := ChordAnalyzer.tmod_note_bounds _ h0b
        have hfinal : ((((((i : Int) + k + 12).tmod 12).toNat : Int)) + -k + 12).tmod 12 =
            (i : Int) := by
          rw [hbeq, hcast, hjeq]
          omega
        rw [hfinal]
        obtain ⟨hlt2, hnote2⟩ := ChordAnalyzer.noteAt_bounded (i : Int) (by omega)
          (by exact_mod_cast h)
        rw [hnote2]
        rfl

/-- Witness for C9 at a concrete input: "Dm" (root index 2, suffix "m")
transposed by +2 and then by −2 returns "Dm". -/
theorem c9_witness :
    ChordAnalyzer.transposeCore
        (ChordAnalyzer.transposeCore
          (ChordAnalyzer.notes.get ⟨2, by decide⟩ ++ ['m']) 2) (-2) =
      ChordAnalyzer.notes.get ⟨2, by decide⟩ ++ ['m'] :=
  (c9_transpose_roundtrip.2.2 2 (by norm_num) 2 (by norm_num) (by norm_num) ['m']
    (fun c hc => by
      simp only [List.head?_cons, Option.mem_def, Option.some.injEq] at hc
      subst hc
      exact ⟨by decide, by decide⟩)).2
